import Mathlib

/-!
Verification of the disposal lifecycle primitive (tsdotnet/disposable).

The development shallowly embeds the four-state disposal state machine of
`DisposableStateBase` (src/src/DisposableStateBase.ts), the synchronous
template `DisposableBase.dispose` (src/src/DisposableBase.ts), the
asynchronous template `AsyncDisposableBase.disposeAsync`, the
`ObjectDisposedException` class (src/src/ObjectDisposedException.ts) and the
bulk disposal utilities (`dispose`, `dispose.withoutException`,
`dispose.these`, `singleUnsafe`, `theseUnsafe`).

Subclass hooks (`_onBeforeDispose`, `_onDispose`, `_onDisposeAsync`) and the
construction-time finalizer are arbitrary client code; they are embedded as
programs (`Prog`) over the object's own protected API, so reentrant calls
made from inside a hook or the finalizer are expressible.  Execution is
driven by a fuel-indexed interpreter `exec`; every state assignment, hook
invocation and finalizer invocation performed by the code is recorded in an
event trace, which is what the observable-behaviour theorems quantify over.
-/

/-- The `DisposeState` const enum (src `DisposeState.ts`):
`Alive = 0, DisposeCalled = 1, Disposing = 2, Disposed = 3`. -/
inductive DisposeState where
  | Alive
  | DisposeCalled
  | Disposing
  | Disposed
deriving DecidableEq, Repr

/-- Numeric value of each state, exactly as declared in the source enum. -/
def DisposeState.toNat : DisposeState → Nat
  | .Alive => 0
  | .DisposeCalled => 1
  | .Disposing => 2
  | .Disposed => 3

instance : LE DisposeState := ⟨fun a b => a.toNat ≤ b.toNat⟩

instance (a b : DisposeState) : Decidable (a ≤ b) :=
  inferInstanceAs (Decidable (a.toNat ≤ b.toNat))

/-- Observable events of one object's execution: every assignment to
`__disposeState.state` (`setState`), every invocation of a hook or of the
finalizer, and every read of `wasDisposed` made via the observation
construct of hook programs. -/
inductive Ev where
  | setState (v : DisposeState)
  | beforeDispose
  | onDispose
  | onDisposeAsync
  | finalizer
  | obs (b : Bool)
deriving DecidableEq, Repr

/-- Client code that a subclass may place in a hook or in the finalizer:
it can do nothing, raise, sequence, reenter the object's disposal API
(`dispose()`, `disposeAsync()`, `this._startDispose()`,
`this._finishDispose()`), or branch on `this.wasDisposed`. -/
inductive Prog where
  | skip
  | raise
  | seq (a b : Prog)
  | callDispose
  | callDisposeAsync
  | callStartDispose
  | callFinishDispose
  | obsWasDisposed (k : Bool → Prog)

/-- The per-instance private record `__disposeState : { state, finalizer? }`
plus the freeze flag (`Object.freeze` in `_finishDispose`) and the event
trace of the run so far. -/
structure St where
  state : DisposeState
  finalizer : Option Prog
  frozen : Bool
  events : List Ev

/-- An object's overridable hooks.  In the source these are the virtual
methods `_onBeforeDispose` (DisposableStateBase), `_onDispose`
(DisposableBase) and `_onDisposeAsync` (AsyncDisposableBase), no-ops by
default. -/
structure Obj where
  onBeforeDispose : Prog := .skip
  onDispose : Prog := .skip
  onDisposeAsync : Prog := .skip

/-- Completion of a call: normal completion (with the boolean result for
`_startDispose`; `true` for void-returning calls), a raised exception, or
fuel exhaustion (an artifact of the fuel-indexed interpreter, not of the
source). -/
inductive Res where
  | ok (b : Bool)
  | thrown
  | fuelOut
deriving DecidableEq, Repr

/-- Which method of the object is being invoked. -/
inductive Call where
  | prog (p : Prog)
  | disp
  | dispAsync
  | start
  | finish

/-- The getter `wasDisposed` of `DisposableStateBase`:
`state != ALIVE && state != DISPOSE_CALLED`. -/
def wasDisposed (s : St) : Bool :=
  s.state != .Alive && s.state != .DisposeCalled

/-- The state in which `_startDispose` runs `_onBeforeDispose`: the guard
passed, so `state` was just set to `DisposeCalled`. -/
def startEntry (s : St) : St :=
  { s with state := .DisposeCalled,
           events := s.events ++ [.setState .DisposeCalled, .beforeDispose] }

/-- The `finally` block of `_startDispose`: advance to `Disposing` only if
the state is still exactly `DisposeCalled`. -/
def advanceIfStillCalled (s : St) : St :=
  if s.state = .DisposeCalled then
    { s with state := .Disposing, events := s.events ++ [.setState .Disposing] }
  else s

/-- The state in which the finalizer runs, per `_finishDispose`: the
finalizer reference has been cleared, `state` set to `Disposed`, and the
record frozen, before the finalizer is invoked. -/
def finishEntry (s : St) : St :=
  { s with finalizer := none, state := .Disposed, frozen := true,
           events := s.events ++ [.setState .Disposed, .finalizer] }

/-- Fuel-indexed interpreter for the object's methods and for hook
programs.  Each branch transcribes the corresponding source method:

* `.start` is `DisposableStateBase._startDispose`: reject unless `Alive`;
  set `DisposeCalled`; run `_onBeforeDispose` under a `finally` that
  advances to `Disposing` only if the state is still `DisposeCalled`;
  rethrow a hook exception after the `finally`, else return `true`.
* `.finish` is `DisposableStateBase._finishDispose`: read and clear the
  finalizer, set `Disposed`, freeze the record, then invoke the finalizer
  if present.  On an already-frozen record the mutation throws (strict-mode
  assignment to a frozen object), with no state change.
* `.disp` is `DisposableBase.dispose`: `if (!this._startDispose()) return;
  try { this._onDispose(); } finally { this._finishDispose(); }` — if both
  the hook and the `finally` raise, the `finally` exception wins.
* `.dispAsync` is `AsyncDisposableBase.disposeAsync`, same shape over
  `_onDisposeAsync`.
* `.prog` runs client code; `obsWasDisposed` reads `wasDisposed` and
  records the observed value. -/
def exec (o : Obj) : Nat → Call → St → St × Res
  | 0, _, s => (s, .fuelOut)
  | n+1, c, s =>
    match c with
    | .prog .skip => (s, .ok true)
    | .prog .raise => (s, .thrown)
    | .prog (.seq a b) =>
      match exec o n (.prog a) s with
      | (s1, .ok _) => exec o n (.prog b) s1
      | r => r
    | .prog .callDispose => exec o n .disp s
    | .prog .callDisposeAsync => exec o n .dispAsync s
    | .prog .callStartDispose =>
      match exec o n .start s with
      | (s1, .ok _) => (s1, .ok true)
      | r => r
    | .prog .callFinishDispose => exec o n .finish s
    | .prog (.obsWasDisposed k) =>
      exec o n (.prog (k (wasDisposed s)))
        { s with events := s.events ++ [.obs (wasDisposed s)] }
    | .disp =>
      match exec o n .start s with
      | (s1, .ok false) => (s1, .ok true)
      | (s1, .ok true) =>
        match exec o n (.prog o.onDispose)
                { s1 with events := s1.events ++ [.onDispose] } with
        | (s2, .fuelOut) => (s2, .fuelOut)
        | (s2, r) =>
          match exec o n .finish s2 with
          | (s3, .ok _) => (s3, r)
          | rf => rf
      | r => r
    | .dispAsync =>
      match exec o n .start s with
      | (s1, .ok false) => (s1, .ok true)
      | (s1, .ok true) =>
        match exec o n (.prog o.onDisposeAsync)
                { s1 with events := s1.events ++ [.onDisposeAsync] } with
        | (s2, .fuelOut) => (s2, .fuelOut)
        | (s2, r) =>
          match exec o n .finish s2 with
          | (s3, .ok _) => (s3, r)
          | rf => rf
      | r => r
    | .start =>
      if s.state = .Alive then
        match exec o n (.prog o.onBeforeDispose) (startEntry s) with
        | (s2, .fuelOut) => (s2, .fuelOut)
        | (s2, .ok _) => (advanceIfStillCalled s2, .ok true)
        | (s2, .thrown) => (advanceIfStillCalled s2, .thrown)
      else (s, .ok false)
    | .finish =>
      if s.frozen then (s, .thrown)
      else
        match s.finalizer with
        | none =>
          ({ s with finalizer := none, state := .Disposed, frozen := true,
                    events := s.events ++ [.setState .Disposed] }, .ok true)
        | some p => exec o n (.prog p) (finishEntry s)

/-- Method `DisposableBase.dispose()`. -/
def execDispose (o : Obj) (n : Nat) (s : St) : St × Res := exec o n .disp s

/-- Method `AsyncDisposableBase.disposeAsync()`. -/
def execDisposeAsync (o : Obj) (n : Nat) (s : St) : St × Res := exec o n .dispAsync s

/-- Method `DisposableStateBase._startDispose()`. -/
def execStart (o : Obj) (n : Nat) (s : St) : St × Res := exec o n .start s

/-- Method `DisposableStateBase._finishDispose()`. -/
def execFinish (o : Obj) (n : Nat) (s : St) : St × Res := exec o n .finish s

/-- Freshly-constructed object state (`state: Alive`, optional finalizer,
record not frozen, nothing observed yet). -/
def initSt (fin : Option Prog) : St :=
  { state := .Alive, finalizer := fin, frozen := false, events := [] }

/-- Calling `dispose()` `N` times in a row, as an external caller does
(each call completes or raises before the next one starts). -/
def iterDispose (o : Obj) (fuel : Nat) : Nat → St → St
  | 0, s => s
  | k+1, s => iterDispose o fuel k (exec o fuel .disp s).1

/-- Executing a sequence of external calls on one object, one after the
other (any exception from one call propagates to the external caller, who
may keep calling). -/
def runOps (o : Obj) (fuel : Nat) : List Call → St → St
  | [], s => s
  | c :: rest, s => runOps o fuel rest (exec o fuel c s).1

/-- The values written to `__disposeState.state` within a trace segment,
in order. -/
def writesOf (l : List Ev) : List DisposeState :=
  l.filterMap fun e => match e with | .setState v => some v | _ => none

/-- Relation `MonoWrites a l b`: starting from observed state `a`, the successive
written states `l` never regress (`a ≤ l₀ ≤ l₁ ≤ …`) and the final
observed state is `b` (the last write, or `a` if none). -/
inductive MonoWrites : DisposeState → List DisposeState → DisposeState → Prop
  | nil (a : DisposeState) : MonoWrites a [] a
  | cons {a b c : DisposeState} {l : List DisposeState} :
      a ≤ b → MonoWrites b l c → MonoWrites a (b :: l) c

/-- Number of adjacent pairs in an observed state sequence that exit
`Alive` (state was `Alive`, next observation is not). -/
def aliveExits : List DisposeState → Nat
  | a :: b :: rest =>
    (if a = .Alive ∧ b ≠ .Alive then 1 else 0) + aliveExits (b :: rest)
  | _ => 0

/-- The `ObjectDisposedException` error object: its `message` (from the
`Error` superclass), the `objectName` field, and the `name` tag. -/
structure ObjectDisposedException where
  objectName : String
  message : String
  name : String
deriving DecidableEq, Repr

/-- The `ObjectDisposedException` constructor
(src/src/ObjectDisposedException.ts):
`super(message ?? `Object '<objectName>' has been disposed and cannot be
used.`); this.objectName = objectName; this.name =
'ObjectDisposedException';`. -/
def ObjectDisposedException.create (objectName : String) (message : Option String) :
    ObjectDisposedException :=
  { objectName := objectName,
    message := message.getD
      ("Object \x27" ++ objectName ++ "\x27 has been disposed and cannot be used."),
    name := "ObjectDisposedException" }

/-- Method `DisposableStateBase.assertIsAlive(strict = false)`:
`if (strict ? state !== ALIVE : this.wasDisposed) throw new
ObjectDisposedException(this.constructor.name); return true;`.
`typeName` stands for `this.constructor.name`. -/
def assertIsAlive (typeName : String) (s : St) (strict : Bool) :
    Except ObjectDisposedException Bool :=
  if (if strict then s.state != .Alive else wasDisposed s) then
    .error (ObjectDisposedException.create typeName none)
  else .ok true

/-- An entry handed to the bulk utilities: `DisposableItem = Disposable |
null | undefined`, duck-typed at runtime.  `nullItem`/`undefinedItem` fail
the `disposable && typeof disposable === 'object'` check; `noDisposeObj`
is an object without a `dispose` function; `obj id raises` is an object
whose `dispose()` either completes or raises. -/
inductive DisposableItem where
  | nullItem
  | undefinedItem
  | noDisposeObj (id : Nat)
  | obj (id : Nat) (raises : Bool)
deriving DecidableEq, Repr

/-- Observable effects of a bulk-disposal run: which items had their
`dispose()` invoked (in order) and which exceptions were reported via
`console.error` in the trapping path. -/
structure BulkSt where
  disposedIds : List Nat
  errorLog : List Nat
deriving DecidableEq, Repr

/-- Completion of a bulk call: normal, or an exception propagating to the
caller. -/
inductive BOutcome where
  | ok
  | thrown
deriving DecidableEq, Repr

/-- Invoking `disposable.dispose()` on an item known to have one: the call
is recorded, then it either completes or raises. -/
def callDisposeOn (id : Nat) (raises : Bool) (st : BulkSt) : BulkSt × BOutcome :=
  ({ st with disposedIds := st.disposedIds ++ [id] },
   if raises then .thrown else .ok)

/-- The private `singleUnsafe(disposable, trapException)` of `dispose.ts`:
skip unless the value is an object with a `dispose` function; when
trapping, catch the exception and report it via `console.error`; otherwise
let it propagate. -/
def singleUnsafeImpl (d : DisposableItem) (trapException : Bool) (st : BulkSt) :
    BulkSt × BOutcome :=
  match d with
  | .obj id raises =>
    if trapException then
      match callDisposeOn id raises st with
      | (st1, .ok) => (st1, .ok)
      | (st1, .thrown) => ({ st1 with errorLog := st1.errorLog ++ [id] }, .ok)
    else callDisposeOn id raises st
  | _ => (st, .ok)

/-- The loop body of `theseUnsafe`: `for (const d of disposables)
singleUnsafe(d, trapExceptions)` — an untrapped exception aborts the loop
and propagates. -/
def theseLoop : List DisposableItem → Bool → BulkSt → BulkSt × BOutcome
  | [], _, st => (st, .ok)
  | d :: rest, trapExceptions, st =>
    match singleUnsafeImpl d trapExceptions st with
    | (st1, .ok) => theseLoop rest trapExceptions st1
    | r => r

/-- The private `theseUnsafe(disposables, trapExceptions)`: return at once
on a null/undefined collection, else iterate. -/
def theseUnsafeImpl (disposables : Option (List DisposableItem))
    (trapExceptions : Bool) (st : BulkSt) : BulkSt × BOutcome :=
  match disposables with
  | none => (st, .ok)
  | some l => theseLoop l trapExceptions st

/-- The variadic `dispose(...disposables)`: `theseUnsafe(disposables,
false)` on the (local, hence safe) arguments array. -/
def dispose (disposables : List DisposableItem) (st : BulkSt) : BulkSt × BOutcome :=
  theseUnsafeImpl (some disposables) false st

/-- Function `dispose.withoutException(...disposables)`: `theseUnsafe(disposables,
true)`. -/
def dispose.withoutException (disposables : List DisposableItem) (st : BulkSt) :
    BulkSt × BOutcome :=
  theseUnsafeImpl (some disposables) true st

/-- Function `dispose.these(disposables, trapExceptions)`: return on a
null/undefined or empty array, else iterate over a defensive copy
(`disposables.slice()`; copying is the identity on immutable lists). -/
def dispose.these (disposables : Option (List DisposableItem))
    (trapExceptions : Bool) (st : BulkSt) : BulkSt × BOutcome :=
  match disposables with
  | none => (st, .ok)
  | some l => if l.length = 0 then (st, .ok) else theseUnsafeImpl (some l) trapExceptions st

/-- The `id` of an entry that is an object with a `dispose` function. -/
def itemId : DisposableItem → Option Nat
  | .obj id _ => some id
  | _ => none

/-- Whether an entry's `dispose()` raises. -/
def itemRaises : DisposableItem → Bool
  | .obj _ raises => raises
  | _ => false

/-- Sample object whose `_onBeforeDispose` override raises; other hooks
are the default no-ops. -/
def oBad : Obj := { onBeforeDispose := .raise }

/-- Sample object whose `_onDispose` override raises. -/
def oTearFail : Obj := { onDispose := .raise }

/-- Sample object whose `_onDisposeAsync` override raises. -/
def oTearFailAsync : Obj := { onDisposeAsync := .raise }

/-- Sample initial state: alive, with a no-op finalizer. -/
def s0 : St := initSt (some .skip)

/-- Sample finalizer that calls back into the object: it reads
`this.wasDisposed` and then does nothing. -/
def pObs : Prog := .obsWasDisposed fun _ => .skip

/-- Sample initial state whose finalizer reads `wasDisposed`. -/
def sObs : St := initSt (some pObs)

/-- Number of finalizer invocations recorded so far. -/
def cF (s : St) : Nat := s.events.count .finalizer

/-- State `t` extends `s`: the trace grew by some segment `Δ` and the state
walked monotonically from `s.state` through the writes of `Δ` to
`t.state`. -/
def Extends (s t : St) : Prop :=
  ∃ Δ, t.events = s.events ++ Δ ∧ MonoWrites s.state (writesOf Δ) t.state

/-- Finalizer accounting between two points of one run: either the
finalizer reference, the freeze flag and the invocation count are all
unchanged; or the reference was consumed — it was present, is now
cleared, the record is frozen and exactly one invocation was added; or the
reference was already absent and the record got frozen with no
invocation. -/
def FinRel (s t : St) : Prop :=
  (t.finalizer = s.finalizer ∧ t.frozen = s.frozen ∧ cF t = cF s)
  ∨ (s.finalizer.isSome = true ∧ t.finalizer = none ∧ t.frozen = true ∧ cF t = cF s + 1)
  ∨ (s.finalizer = none ∧ t.finalizer = none ∧ t.frozen = true ∧ cF t = cF s)

/-- Conjunction of the two run invariants, established for every call. -/
def StepRel (s t : St) : Prop := Extends s t ∧ FinRel s t

/-- From a terminally disposed, frozen state nothing changes: the only
events the code can add are observations of `wasDisposed`, which all read
`true`. -/
def ObsOnly (s t : St) : Prop :=
  t.state = s.state ∧ t.frozen = s.frozen ∧ t.finalizer = s.finalizer ∧
  ∃ Δ, t.events = s.events ++ Δ ∧ ∀ e ∈ Δ, e = Ev.obs true

/-- The events `t` recorded beyond those already present in `s` (the trace
grows by appending, so this is the new segment). -/
def newEvents (s t : St) : List Ev :=
  t.events.drop s.events.length

/-- Sample terminal state: disposed, frozen, finalizer consumed. -/
def sDisposed : St :=
  { state := .Disposed, finalizer := none, frozen := true, events := [] }

/-- The completion rule of a `try { ... } finally { ... }` block: if the
`finally` body completes normally, the `try` block's completion (`r2`)
stands; if the `finally` completes abruptly, its completion replaces it. -/
def finallyRes (r2 : Res) : Res → Res
  | .ok _ => r2
  | x => x

/-- The hook-invocation markers of the trace are unchanged between two
points of a run: no `_onBeforeDispose`, `_onDispose` or `_onDisposeAsync`
invocation happened in between. -/
def markersUnchanged (s t : St) : Prop :=
  t.events.count Ev.beforeDispose = s.events.count Ev.beforeDispose ∧
  t.events.count Ev.onDispose = s.events.count Ev.onDispose ∧
  t.events.count Ev.onDisposeAsync = s.events.count Ev.onDisposeAsync

theorem DisposeState.le_disposed (a : DisposeState) : a ≤ .Disposed := by
  cases a <;> decide

theorem DisposeState.alive_le (a : DisposeState) : DisposeState.Alive ≤ a := by
  cases a <;> decide

theorem DisposeState.eq_alive_of_le {a : DisposeState} (h : a ≤ .Alive) :
    a = .Alive := by
  revert h; cases a <;> decide

theorem DisposeState.ne_alive_mono {a b : DisposeState} (h : a ≤ b)
    (ha : a ≠ .Alive) : b ≠ .Alive := by
  intro hb; subst hb; exact ha (DisposeState.eq_alive_of_le h)

theorem MonoWrites.append {a b c : DisposeState} {l m : List DisposeState}
    (h1 : MonoWrites a l b) (h2 : MonoWrites b m c) : MonoWrites a (l ++ m) c := by
  induction h1 with
  | nil => simpa using h2
  | cons hab _ ih => exact .cons hab (ih h2)

theorem MonoWrites.le {a c : DisposeState} {l : List DisposeState}
    (h : MonoWrites a l c) : a ≤ c := by
  induction h with
  | nil => exact Nat.le_refl _
  | cons hab _ ih => exact Nat.le_trans hab ih

theorem writesOf_append (l m : List Ev) :
    writesOf (l ++ m) = writesOf l ++ writesOf m := by
  simp [writesOf, List.filterMap_append]

theorem Extends.extRefl (s : St) : Extends s s :=
  ⟨[], by simp, .nil _⟩

theorem Extends.extTrans {s t u : St} (h1 : Extends s t) (h2 : Extends t u) :
    Extends s u := by
  obtain ⟨d1, he1, hm1⟩ := h1
  obtain ⟨d2, he2, hm2⟩ := h2
  exact ⟨d1 ++ d2, by simp [he2, he1], by rw [writesOf_append]; exact hm1.append hm2⟩

theorem Extends.state_le {s t : St} (h : Extends s t) : s.state ≤ t.state := by
  obtain ⟨_, _, hm⟩ := h; exact hm.le

theorem FinRel.finRefl (s : St) : FinRel s s := Or.inl ⟨rfl, rfl, rfl⟩

theorem FinRel.finTrans {s t u : St} (h1 : FinRel s t) (h2 : FinRel t u) :
    FinRel s u := by
  rcases h1 with ⟨hf1, hz1, hc1⟩ | ⟨hs1, hf1, hz1, hc1⟩ | ⟨hn1, hf1, hz1, hc1⟩ <;>
    rcases h2 with ⟨hf2, hz2, hc2⟩ | ⟨hs2, hf2, hz2, hc2⟩ | ⟨hn2, hf2, hz2, hc2⟩
  · exact Or.inl ⟨hf2.trans hf1, hz2.trans hz1, hc2.trans hc1⟩
  · exact Or.inr (Or.inl ⟨by rw [hf1] at hs2; exact hs2, hf2, hz2, by rw [hc2, hc1]⟩)
  · exact Or.inr (Or.inr ⟨by rw [hf1] at hn2; exact hn2, hf2, hz2, hc2.trans hc1⟩)
  · exact Or.inr (Or.inl ⟨hs1, by rw [hf2, hf1], by rw [hz2, hz1], by rw [hc2, hc1]⟩)
  · exact absurd hs2 (by simp [hf1])
  · exact Or.inr (Or.inl ⟨hs1, hf2, hz2, by rw [hc2, hc1]⟩)
  · exact Or.inr (Or.inr ⟨hn1, by rw [hf2, hf1], by rw [hz2, hz1], by rw [hc2, hc1]⟩)
  · exact absurd hs2 (by simp [hf1])
  · exact Or.inr (Or.inr ⟨hn1, hf2, hz2, hc2.trans hc1⟩)

theorem StepRel.stepRefl (s : St) : StepRel s s := ⟨Extends.extRefl s, FinRel.finRefl s⟩

theorem StepRel.stepTrans {s t u : St} (h1 : StepRel s t) (h2 : StepRel t u) :
    StepRel s u := ⟨h1.1.extTrans h2.1, h1.2.finTrans h2.2⟩

theorem ObsOnly.obsRefl (s : St) : ObsOnly s s :=
  ⟨rfl, rfl, rfl, [], by simp, by simp⟩

theorem ObsOnly.obsTrans {s t u : St} (h1 : ObsOnly s t) (h2 : ObsOnly t u) :
    ObsOnly s u := by
  obtain ⟨a1, b1, c1, d1, he1, hm1⟩ := h1
  obtain ⟨a2, b2, c2, d2, he2, hm2⟩ := h2
  refine ⟨a2.trans a1, b2.trans b1, c2.trans c1, d1 ++ d2, by simp [he2, he1], ?_⟩
  intro e he
  rcases List.mem_append.1 he with h | h
  · exact hm1 e h
  · exact hm2 e h

theorem step_marker (s : St) (e : Ev) (h1 : writesOf [e] = [])
    (h2 : e ≠ Ev.finalizer) :
    StepRel s { s with events := s.events ++ [e] } := by
  constructor
  · exact ⟨[e], rfl, h1 ▸ MonoWrites.nil _⟩
  · refine Or.inl ⟨rfl, rfl, ?_⟩
    have hc : List.count Ev.finalizer [e] = 0 := by
      cases e <;> simp_all [List.count_cons, List.count_nil]
    simp [cF, List.count_append, hc]

theorem step_startEntry {s : St} (h : s.state = .Alive) :
    StepRel s (startEntry s) := by
  constructor
  · refine ⟨[.setState .DisposeCalled, .beforeDispose], rfl, ?_⟩
    show MonoWrites s.state [.DisposeCalled] .DisposeCalled
    exact .cons (h ▸ DisposeState.alive_le _) (.nil _)
  · exact Or.inl ⟨rfl, rfl, by simp [cF, startEntry, List.count_append]⟩

theorem step_advance (s : St) : StepRel s (advanceIfStillCalled s) := by
  unfold advanceIfStillCalled
  by_cases h : s.state = .DisposeCalled
  · rw [if_pos h]
    constructor
    · refine ⟨[.setState .Disposing], rfl, ?_⟩
      show MonoWrites s.state [.Disposing] .Disposing
      exact .cons (h ▸ (by decide : DisposeState.DisposeCalled ≤ .Disposing)) (.nil _)
    · exact Or.inl ⟨rfl, rfl, by simp [cF, List.count_append]⟩
  · rw [if_neg h]; exact StepRel.stepRefl s

theorem step_finishNone {s : St} (h : s.finalizer = none) :
    StepRel s { s with finalizer := none, state := .Disposed, frozen := true,
                       events := s.events ++ [.setState .Disposed] } := by
  constructor
  · refine ⟨[.setState .Disposed], rfl, ?_⟩
    show MonoWrites s.state [.Disposed] .Disposed
    exact .cons (DisposeState.le_disposed _) (.nil _)
  · exact Or.inr (Or.inr ⟨h, rfl, rfl, by simp [cF, List.count_append]⟩)

theorem step_finishEntry {s : St} {p : Prog} (h : s.finalizer = some p) :
    StepRel s (finishEntry s) := by
  constructor
  · refine ⟨[.setState .Disposed, .finalizer], rfl, ?_⟩
    show MonoWrites s.state [.Disposed] .Disposed
    exact .cons (DisposeState.le_disposed _) (.nil _)
  · exact Or.inr (Or.inl ⟨by simp [h], rfl, rfl, by simp [cF, finishEntry, List.count_append]⟩)

theorem exec_step (o : Obj) : ∀ (n : Nat) (c : Call) (s : St),
    StepRel s (exec o n c s).1 := by
  intro n
  induction n with
  | zero => intro c s; exact StepRel.stepRefl s
  | succ n ih =>
    intro c s
    cases c with
    | prog p =>
      cases p with
      | skip => exact StepRel.stepRefl s
      | raise => exact StepRel.stepRefl s
      | seq a b =>
        have h1 := ih (.prog a) s
        rcases ha : exec o n (.prog a) s with ⟨s1, r1⟩
        rw [ha] at h1
        simp only [exec, ha]
        cases r1 with
        | ok b1 => exact h1.stepTrans (ih (.prog b) s1)
        | thrown => exact h1
        | fuelOut => exact h1
      | callDispose => exact ih .disp s
      | callDisposeAsync => exact ih .dispAsync s
      | callStartDispose =>
        have h1 := ih .start s
        rcases ha : exec o n .start s with ⟨s1, r1⟩
        rw [ha] at h1
        simp only [exec, ha]
        cases r1 with
        | ok b1 => exact h1
        | thrown => exact h1
        | fuelOut => exact h1
      | callFinishDispose => exact ih .finish s
      | obsWasDisposed k =>
        exact (step_marker s (.obs (wasDisposed s)) rfl (by simp)).stepTrans
          (ih (.prog (k (wasDisposed s))) _)
    | disp =>
      simp only [exec]
      split
      next s1 heq =>
        have hs := ih .start s; rw [heq] at hs; exact hs
      next s1 heq =>
        have hs := ih .start s; rw [heq] at hs
        have hm := step_marker s1 Ev.onDispose rfl (by simp)
        split
        next s2 heq2 =>
          have hp := ih (.prog o.onDispose)
            { s1 with events := s1.events ++ [Ev.onDispose] }
          rw [heq2] at hp
          exact (hs.stepTrans hm).stepTrans hp
        next s2 r2 hne2 heq2 =>
          have hp := ih (.prog o.onDispose)
            { s1 with events := s1.events ++ [Ev.onDispose] }
          rw [heq2] at hp
          have hs2 := (hs.stepTrans hm).stepTrans hp
          split
          next s3 b3 heq3 =>
            have hf := ih .finish s2; rw [heq3] at hf; exact hs2.stepTrans hf
          next rf hne3 heq3 =>
            exact hs2.stepTrans (ih .finish s2)
      next r hne heq =>
        exact ih .start s
    | dispAsync =>
      simp only [exec]
      split
      next s1 heq =>
        have hs := ih .start s; rw [heq] at hs; exact hs
      next s1 heq =>
        have hs := ih .start s; rw [heq] at hs
        have hm := step_marker s1 Ev.onDisposeAsync rfl (by simp)
        split
        next s2 heq2 =>
          have hp := ih (.prog o.onDisposeAsync)
            { s1 with events := s1.events ++ [Ev.onDisposeAsync] }
          rw [heq2] at hp
          exact (hs.stepTrans hm).stepTrans hp
        next s2 r2 hne2 heq2 =>
          have hp := ih (.prog o.onDisposeAsync)
            { s1 with events := s1.events ++ [Ev.onDisposeAsync] }
          rw [heq2] at hp
          have hs2 := (hs.stepTrans hm).stepTrans hp
          split
          next s3 b3 heq3 =>
            have hf := ih .finish s2; rw [heq3] at hf; exact hs2.stepTrans hf
          next rf hne3 heq3 =>
            exact hs2.stepTrans (ih .finish s2)
      next r hne heq =>
        exact ih .start s
    | start =>
      simp only [exec]
      by_cases hA : s.state = .Alive
      · rw [if_pos hA]
        have hse := step_startEntry hA
        have hp := ih (.prog o.onBeforeDispose) (startEntry s)
        rcases h2 : exec o n (.prog o.onBeforeDispose) (startEntry s) with ⟨s2, r2⟩
        rw [h2] at hp
        cases r2 with
        | fuelOut => exact hse.stepTrans hp
        | ok b2 => exact ((hse.stepTrans hp)).stepTrans (step_advance s2)
        | thrown => exact ((hse.stepTrans hp)).stepTrans (step_advance s2)
      · rw [if_neg hA]; exact StepRel.stepRefl s
    | finish =>
      simp only [exec]
      by_cases hz : s.frozen
      · rw [if_pos hz]; exact StepRel.stepRefl s
      · rw [if_neg hz]
        cases hfin : s.finalizer with
        | none => exact step_finishNone hfin
        | some p => exact (step_finishEntry hfin).stepTrans (ih (.prog p) (finishEntry s))

theorem exec_extends (o : Obj) (n : Nat) (c : Call) (s : St) :
    Extends s (exec o n c s).1 := (exec_step o n c s).1

theorem exec_finrel (o : Obj) (n : Nat) (c : Call) (s : St) :
    FinRel s (exec o n c s).1 := (exec_step o n c s).2

theorem exec_state_le (o : Obj) (n : Nat) (c : Call) (s : St) :
    s.state ≤ (exec o n c s).1.state := (exec_extends o n c s).state_le

/-- The idempotence guard of `_startDispose`: a call on an object whose
state is not `Alive` returns `false` at once, leaving everything
unchanged and invoking nothing. -/
theorem start_reject (o : Obj) (m : Nat) (s : St) (h : s.state ≠ .Alive) :
    exec o (m+1) .start s = (s, .ok false) := by
  simp only [exec, if_neg h]

theorem start_not_true (o : Obj) (m : Nat) (s : St) (h : s.state ≠ .Alive) :
    (exec o m .start s).2 ≠ .ok true := by
  cases m with
  | zero => simp [exec]
  | succ m => rw [start_reject o m s h]; simp

/-- One-step unfolding of `dispose()`: the fixed sequence of
`DisposableBase.dispose` in terms of its parts. -/
theorem exec_disp_succ (o : Obj) (n : Nat) (s : St) :
    exec o (n+1) .disp s =
      (match exec o n .start s with
       | (s1, .ok false) => (s1, .ok true)
       | (s1, .ok true) =>
         match exec o n (.prog o.onDispose)
                 { s1 with events := s1.events ++ [.onDispose] } with
         | (s2, .fuelOut) => (s2, .fuelOut)
         | (s2, r) =>
           match exec o n .finish s2 with
           | (s3, .ok _) => (s3, r)
           | rf => rf
       | r => r) := rfl

/-- One-step unfolding of `disposeAsync()`. -/
theorem exec_dispAsync_succ (o : Obj) (n : Nat) (s : St) :
    exec o (n+1) .dispAsync s =
      (match exec o n .start s with
       | (s1, .ok false) => (s1, .ok true)
       | (s1, .ok true) =>
         match exec o n (.prog o.onDisposeAsync)
                 { s1 with events := s1.events ++ [.onDisposeAsync] } with
         | (s2, .fuelOut) => (s2, .fuelOut)
         | (s2, r) =>
           match exec o n .finish s2 with
           | (s3, .ok _) => (s3, r)
           | rf => rf
       | r => r) := rfl

/-- One-step unfolding of `_startDispose()`. -/
theorem exec_start_succ (o : Obj) (n : Nat) (s : St) :
    exec o (n+1) .start s =
      (if s.state = .Alive then
        match exec o n (.prog o.onBeforeDispose) (startEntry s) with
        | (s2, .fuelOut) => (s2, .fuelOut)
        | (s2, .ok _) => (advanceIfStillCalled s2, .ok true)
        | (s2, .thrown) => (advanceIfStillCalled s2, .thrown)
      else (s, .ok false)) := rfl

/-- One-step unfolding of `_finishDispose()`. -/
theorem exec_finish_succ (o : Obj) (n : Nat) (s : St) :
    exec o (n+1) .finish s =
      (if s.frozen then (s, .thrown)
       else
        match s.finalizer with
        | none =>
          ({ s with finalizer := none, state := .Disposed, frozen := true,
                    events := s.events ++ [.setState .Disposed] }, .ok true)
        | some p => exec o n (.prog p) (finishEntry s)) := rfl

/-- Calling `dispose()` on an object whose state is not `Alive` is a complete
no-op: it returns normally with no state change and no events. -/
theorem disp_noop (o : Obj) (m : Nat) (s : St) (h : s.state ≠ .Alive) :
    exec o (m+2) .disp s = (s, .ok true) := by
  rw [exec_disp_succ, start_reject o m s h]

/-- Calling `disposeAsync()` on an object whose state is not `Alive` is likewise a
complete no-op. -/
theorem dispAsync_noop (o : Obj) (m : Nat) (s : St) (h : s.state ≠ .Alive) :
    exec o (m+2) .dispAsync s = (s, .ok true) := by
  rw [exec_dispAsync_succ, start_reject o m s h]

theorem markersUnchanged.mkRefl (s : St) : markersUnchanged s s := ⟨rfl, rfl, rfl⟩

theorem markersUnchanged.mkTrans {s t u : St} (h1 : markersUnchanged s t)
    (h2 : markersUnchanged t u) : markersUnchanged s u :=
  ⟨h2.1.trans h1.1, h2.2.1.trans h1.2.1, h2.2.2.trans h1.2.2⟩

theorem markers_append (s : St) (l : List Ev)
    (h1 : l.count Ev.beforeDispose = 0) (h2 : l.count Ev.onDispose = 0)
    (h3 : l.count Ev.onDisposeAsync = 0) :
    markersUnchanged s { s with events := s.events ++ l } := by
  refine ⟨?_, ?_, ?_⟩ <;> simp [List.count_append, h1, h2, h3]

/-- Once the state has left `Alive`, no execution whatsoever can invoke
`_onBeforeDispose`, `_onDispose` or `_onDisposeAsync` again: markers are
only recorded behind the `_startDispose` guard, which fails. -/
theorem exec_markers (o : Obj) : ∀ (n : Nat) (c : Call) (s : St),
    s.state ≠ .Alive → markersUnchanged s (exec o n c s).1 := by
  intro n
  induction n with
  | zero => intro c s _; exact markersUnchanged.mkRefl s
  | succ n ih =>
    intro c s h
    have hne : ∀ t : St, Extends s t → t.state ≠ .Alive := fun t ht =>
      DisposeState.ne_alive_mono ht.state_le h
    cases c with
    | prog p =>
      cases p with
      | skip => exact markersUnchanged.mkRefl s
      | raise => exact markersUnchanged.mkRefl s
      | seq a b =>
        have h1 := ih (.prog a) s h
        have hx1 := exec_extends o n (.prog a) s
        rcases ha : exec o n (.prog a) s with ⟨s1, r1⟩
        rw [ha] at h1 hx1
        simp only [exec, ha]
        cases r1 with
        | ok b1 => exact h1.mkTrans (ih (.prog b) s1 (hne s1 hx1))
        | thrown => exact h1
        | fuelOut => exact h1
      | callDispose => exact ih .disp s h
      | callDisposeAsync => exact ih .dispAsync s h
      | callStartDispose =>
        have h1 := ih .start s h
        rcases ha : exec o n .start s with ⟨s1, r1⟩
        rw [ha] at h1
        simp only [exec, ha]
        cases r1 with
        | ok b1 => exact h1
        | thrown => exact h1
        | fuelOut => exact h1
      | callFinishDispose => exact ih .finish s h
      | obsWasDisposed k =>
        have hm : markersUnchanged s { s with events := s.events ++ [Ev.obs (wasDisposed s)] } :=
          markers_append s _ (by simp) (by simp) (by simp)
        exact hm.mkTrans (ih (.prog (k (wasDisposed s))) _ h)
    | disp =>
      simp only [exec]
      split
      next s1 heq =>
        have h1 := ih .start s h; rw [heq] at h1; exact h1
      next s1 heq =>
        exact absurd (by rw [heq] : (exec o n .start s).2 = .ok true)
          (start_not_true o n s h)
      next r hne2 heq => exact ih .start s h
    | dispAsync =>
      simp only [exec]
      split
      next s1 heq =>
        have h1 := ih .start s h; rw [heq] at h1; exact h1
      next s1 heq =>
        exact absurd (by rw [heq] : (exec o n .start s).2 = .ok true)
          (start_not_true o n s h)
      next r hne2 heq => exact ih .start s h
    | start =>
      simp only [exec, if_neg h]
      exact markersUnchanged.mkRefl s
    | finish =>
      simp only [exec]
      by_cases hz : s.frozen
      · rw [if_pos hz]; exact markersUnchanged.mkRefl s
      · rw [if_neg hz]
        cases hfin : s.finalizer with
        | none =>
          exact markers_append s [Ev.setState .Disposed] (by simp) (by simp) (by simp)
        | some p =>
          have hm : markersUnchanged s (finishEntry s) := by
            have := markers_append s [Ev.setState .Disposed, Ev.finalizer]
              (by simp) (by simp) (by simp)
            simpa [finishEntry] using this
          have hx : Extends s (finishEntry s) := (step_finishEntry hfin).1
          exact hm.mkTrans (ih (.prog p) (finishEntry s) (hne _ hx))

/-- From the terminal configuration (`Disposed`, record frozen) nothing
observable can change: every call leaves state, freeze flag and the
cleared finalizer untouched, and the only events that can be added are
reads of `wasDisposed`, all observing `true`. -/
theorem exec_obsOnly (o : Obj) : ∀ (n : Nat) (c : Call) (s : St),
    s.state = .Disposed → s.frozen = true → ObsOnly s (exec o n c s).1 := by
  intro n
  induction n with
  | zero => intro c s _ _; exact ObsOnly.obsRefl s
  | succ n ih =>
    intro c s hD hz
    have hna : s.state ≠ .Alive := by rw [hD]; decide
    cases c with
    | prog p =>
      cases p with
      | skip => exact ObsOnly.obsRefl s
      | raise => exact ObsOnly.obsRefl s
      | seq a b =>
        have h1 := ih (.prog a) s hD hz
        rcases ha : exec o n (.prog a) s with ⟨s1, r1⟩
        rw [ha] at h1
        simp only [exec, ha]
        cases r1 with
        | ok b1 => exact h1.obsTrans (ih (.prog b) s1 (h1.1.trans hD) (h1.2.1.trans hz))
        | thrown => exact h1
        | fuelOut => exact h1
      | callDispose => exact ih .disp s hD hz
      | callDisposeAsync => exact ih .dispAsync s hD hz
      | callStartDispose =>
        have h1 := ih .start s hD hz
        rcases ha : exec o n .start s with ⟨s1, r1⟩
        rw [ha] at h1
        simp only [exec, ha]
        cases r1 with
        | ok b1 => exact h1
        | thrown => exact h1
        | fuelOut => exact h1
      | callFinishDispose => exact ih .finish s hD hz
      | obsWasDisposed k =>
        have hw : wasDisposed s = true := by simp [wasDisposed, hD]
        have hm : ObsOnly s { s with events := s.events ++ [Ev.obs (wasDisposed s)] } :=
          ⟨rfl, rfl, rfl, [Ev.obs (wasDisposed s)], rfl, by simp [hw]⟩
        exact hm.obsTrans (ih (.prog (k (wasDisposed s))) _ hD hz)
    | disp =>
      simp only [exec]
      split
      next s1 heq =>
        have h1 := ih .start s hD hz; rw [heq] at h1; exact h1
      next s1 heq =>
        exact absurd (by rw [heq] : (exec o n .start s).2 = .ok true)
          (start_not_true o n s hna)
      next r hne2 heq => exact ih .start s hD hz
    | dispAsync =>
      simp only [exec]
      split
      next s1 heq =>
        have h1 := ih .start s hD hz; rw [heq] at h1; exact h1
      next s1 heq =>
        exact absurd (by rw [heq] : (exec o n .start s).2 = .ok true)
          (start_not_true o n s hna)
      next r hne2 heq => exact ih .start s hD hz
    | start =>
      simp only [exec, if_neg hna]
      exact ObsOnly.obsRefl s
    | finish =>
      simp only [exec, if_pos hz]
      exact ObsOnly.obsRefl s

theorem aliveExits_zero {a c : DisposeState} {l : List DisposeState}
    (h : MonoWrites a l c) : a ≠ .Alive → aliveExits (a :: l) = 0 := by
  induction h with
  | nil => intro _; rfl
  | @cons a b c l hab hmw ih =>
    intro ha
    have hb := DisposeState.ne_alive_mono hab ha
    simp [aliveExits, ha, ih hb]

theorem aliveExits_le_one {a c : DisposeState} {l : List DisposeState}
    (h : MonoWrites a l c) : aliveExits (a :: l) ≤ 1 := by
  induction h with
  | nil => simp [aliveExits]
  | @cons a b c l hab hmw ih =>
    by_cases ha : a = .Alive
    · by_cases hb : b = .Alive
      · simpa [aliveExits, ha, hb] using ih
      · have h0 := aliveExits_zero hmw hb
        simp [aliveExits, ha, hb, h0]
    · rw [aliveExits_zero (.cons hab hmw) ha]
      exact Nat.zero_le 1

theorem runOps_step (o : Obj) (fuel : Nat) : ∀ (ops : List Call) (s : St),
    StepRel s (runOps o fuel ops s) := by
  intro ops
  induction ops with
  | nil => intro s; exact StepRel.stepRefl s
  | cons c rest ih =>
    intro s
    exact (exec_step o fuel c s).stepTrans (ih (exec o fuel c s).1)

theorem finrel_none {s t : St} (h : s.finalizer = none) (hr : FinRel s t) :
    t.finalizer = none ∧ cF t = cF s := by
  rcases hr with ⟨hf, _, hc⟩ | ⟨hs, _, _, _⟩ | ⟨_, hf, _, hc⟩
  · exact ⟨hf.trans h, hc⟩
  · rw [h] at hs; simp at hs
  · exact ⟨hf, hc⟩

theorem iterDispose_fix (o : Obj) (m : Nat) (t : St) (h : t.state ≠ .Alive) :
    ∀ k, iterDispose o (m+2) k t = t := by
  intro k
  induction k with
  | zero => rfl
  | succ k ih =>
    show iterDispose o (m+2) k (exec o (m+2) .disp t).1 = t
    rw [disp_noop o m t h]
    exact ih

/-- C3: over every sequence of external calls to `dispose`, `disposeAsync`,
`_startDispose` and `_finishDispose` — on an object whose hooks and
finalizer are arbitrary client programs, hence including reentrant calls
made from inside the hooks or the finalizer — the full sequence of states
written to the disposal record walks monotonically (never regressing)
through `Alive → DisposeCalled → Disposing → Disposed`; at most one write
in the whole run ever moves the observed state out of `Alive`; and every
`_startDispose` call that finds the state already out of `Alive` is
rejected at the guard, returning `false` with nothing changed. -/
theorem c3_state_monotonicity (o : Obj) (fuel : Nat) (ops : List Call) (s : St) :
    (runOps o fuel ops s).events = s.events ++ newEvents s (runOps o fuel ops s) ∧
    MonoWrites s.state (writesOf (newEvents s (runOps o fuel ops s)))
      (runOps o fuel ops s).state ∧
    aliveExits (s.state :: writesOf (newEvents s (runOps o fuel ops s))) ≤ 1 ∧
    (∀ (m : Nat) (t : St), t.state ≠ .Alive → exec o (m+1) .start t = (t, .ok false)) := by
  obtain ⟨Δ, he, hm⟩ := (runOps_step o fuel ops s).1
  have hΔ : newEvents s (runOps o fuel ops s) = Δ := by
    simp [newEvents, he, List.drop_left]
  rw [hΔ]
  exact ⟨he, hm, aliveExits_le_one hm, fun m t ht => start_reject o m t ht⟩

theorem c3_state_monotonicity_witness :
    (runOps oTearFail 6 [.disp, .start, .finish, .dispAsync] s0).events =
      s0.events ++ newEvents s0 (runOps oTearFail 6 [.disp, .start, .finish, .dispAsync] s0) ∧
    MonoWrites s0.state
      (writesOf (newEvents s0 (runOps oTearFail 6 [.disp, .start, .finish, .dispAsync] s0)))
      (runOps oTearFail 6 [.disp, .start, .finish, .dispAsync] s0).state ∧
    aliveExits (s0.state ::
      writesOf (newEvents s0 (runOps oTearFail 6 [.disp, .start, .finish, .dispAsync] s0))) ≤ 1 ∧
    exec oTearFail 4 .start sDisposed = (sDisposed, .ok false) := by
  obtain ⟨h1, h2, h3, h4⟩ :=
    c3_state_monotonicity oTearFail 6 [.disp, .start, .finish, .dispAsync] s0
  exact ⟨h1, h2, h3, h4 3 sDisposed (by decide)⟩

/-- C4: `_startDispose` returns `false` at once, changing nothing, when the
state is not `Alive`; otherwise it sets the state to `DisposeCalled`,
invokes `_onBeforeDispose()`, and on every exit path — normal return or
raised exception — runs the `finally` step `advanceIfStillCalled`, which
advances the state to `Disposing` exactly when the state is still
`DisposeCalled` and otherwise leaves it alone; when the hook completes
normally the call returns `true`. -/
theorem c4_startDispose (o : Obj) (n : Nat) (s : St) :
    (s.state ≠ .Alive → exec o (n+1) .start s = (s, .ok false)) ∧
    (s.state = .Alive →
      (startEntry s).state = .DisposeCalled ∧
      (startEntry s).events = s.events ++ [.setState .DisposeCalled, .beforeDispose] ∧
      (∀ (s2 : St) (b : Bool),
         exec o n (.prog o.onBeforeDispose) (startEntry s) = (s2, .ok b) →
         exec o (n+1) .start s = (advanceIfStillCalled s2, .ok true)) ∧
      (∀ (s2 : St),
         exec o n (.prog o.onBeforeDispose) (startEntry s) = (s2, .thrown) →
         exec o (n+1) .start s = (advanceIfStillCalled s2, .thrown))) ∧
    (∀ (t : St), t.state = .DisposeCalled →
       advanceIfStillCalled t =
         { t with state := .Disposing, events := t.events ++ [.setState .Disposing] }) ∧
    (∀ (t : St), t.state ≠ .DisposeCalled → advanceIfStillCalled t = t) := by
  refine ⟨fun h => start_reject o n s h, fun hA => ⟨rfl, rfl, ?_, ?_⟩, ?_, ?_⟩
  · intro s2 b h2
    rw [exec_start_succ, if_pos hA, h2]
  · intro s2 h2
    rw [exec_start_succ, if_pos hA, h2]
  · intro t ht
    simp [advanceIfStillCalled, ht]
  · intro t ht
    simp [advanceIfStillCalled, ht]

theorem c4_startDispose_witness :
    exec oTearFail 4 .start sDisposed = (sDisposed, .ok false) ∧
    exec oTearFail 4 .start s0 = (advanceIfStillCalled (startEntry s0), .ok true) ∧
    advanceIfStillCalled (startEntry s0) =
      { startEntry s0 with state := .Disposing,
                           events := (startEntry s0).events ++ [.setState .Disposing] } ∧
    advanceIfStillCalled sDisposed = sDisposed := by
  refine ⟨(c4_startDispose oTearFail 3 sDisposed).1 (by decide),
          ((c4_startDispose oTearFail 3 s0).2.1 rfl).2.2.1 (startEntry s0) true rfl,
          (c4_startDispose oTearFail 3 s0).2.2.1 (startEntry s0) rfl,
          (c4_startDispose oTearFail 3 s0).2.2.2 sDisposed (by decide)⟩

/-- C6: `assertIsAlive(strict)` returns `true` under the non-strict check
for states `Alive` and `DisposeCalled` and raises an
`ObjectDisposedException` carrying the instance's runtime type name for
`Disposing` and `Disposed`; the strict check passes only in state exactly
`Alive`; so an object in `DisposeCalled` passes the non-strict check but
fails the strict one. -/
theorem c6_assertIsAlive (typeName : String) (s : St) :
    (assertIsAlive typeName s false = .ok true ↔
       (s.state = .Alive ∨ s.state = .DisposeCalled)) ∧
    (assertIsAlive typeName s true = .ok true ↔ s.state = .Alive) ∧
    ((s.state = .Disposing ∨ s.state = .Disposed) →
       assertIsAlive typeName s false =
         .error (ObjectDisposedException.create typeName none)) ∧
    (s.state ≠ .Alive →
       assertIsAlive typeName s true =
         .error (ObjectDisposedException.create typeName none)) ∧
    (s.state = .DisposeCalled →
       assertIsAlive typeName s false = .ok true ∧
       assertIsAlive typeName s true =
         .error (ObjectDisposedException.create typeName none)) ∧
    (ObjectDisposedException.create typeName none).objectName = typeName := by
  rcases s with ⟨st, f, z, ev⟩
  cases st <;>
    simp [assertIsAlive, wasDisposed, ObjectDisposedException.create]

theorem c6_assertIsAlive_witness :
    (assertIsAlive "MyDisposable" s0 false = .ok true ↔
       (s0.state = .Alive ∨ s0.state = .DisposeCalled)) ∧
    assertIsAlive "MyDisposable" sDisposed true =
      .error (ObjectDisposedException.create "MyDisposable" none) ∧
    (ObjectDisposedException.create "MyDisposable" none).objectName = "MyDisposable" := by
  refine ⟨(c6_assertIsAlive "MyDisposable" s0).1, ?_, (c6_assertIsAlive "MyDisposable" s0).2.2.2.2.2⟩
  exact (c6_assertIsAlive "MyDisposable" sDisposed).2.2.2.1 (by decide)

/-- C9: constructing an `ObjectDisposedException` from an object name and
no message synthesizes the message
`Object '<objectName>' has been disposed and cannot be used.`, stores the
given name in the readable `objectName` field, and tags the error with the
distinguishing `name` value `ObjectDisposedException`. -/
theorem c9_exception_construction (objectName : String) :
    (ObjectDisposedException.create objectName none).message =
      "Object \x27" ++ objectName ++ "\x27 has been disposed and cannot be used." ∧
    (ObjectDisposedException.create objectName none).objectName = objectName ∧
    (ObjectDisposedException.create objectName none).name = "ObjectDisposedException" :=
  ⟨rfl, rfl, rfl⟩

/-- C7: the trapping bulk variant `dispose.withoutException(x, faulty, y)`
attempts disposal of all three items even though the middle one's
`dispose()` raises — the exception is caught and reported to the error
log, and the call completes normally — whereas the plain variadic
`dispose(x, faulty, y)` disposes `x`, lets `faulty`'s exception propagate
to the caller, and never reaches `y`. -/
theorem c7_trapping_vs_plain (xid fid yid : Nat) (st : BulkSt) :
    dispose.withoutException [.obj xid false, .obj fid true, .obj yid false] st =
      ({ disposedIds := st.disposedIds ++ [xid, fid, yid],
         errorLog := st.errorLog ++ [fid] }, .ok) ∧
    dispose [.obj xid false, .obj fid true, .obj yid false] st =
      ({ st with disposedIds := st.disposedIds ++ [xid, fid] }, .thrown) := by
  constructor <;>
    simp [dispose, dispose.withoutException, theseUnsafeImpl, theseLoop,
          singleUnsafeImpl, callDisposeOn]

/-- C8: bulk disposal skips entries that are null, undefined or lack a
`dispose` function — silently, with nothing raised and nothing logged —
disposes the remaining items in iteration order (so
`dispose.these [null, a, undefined, b]` disposes exactly `a` then `b`),
treats an empty or absent collection as a no-op, and in general, when no
item raises, disposes exactly the entries that have a `dispose` function,
in order, logging nothing. -/
theorem c8_skip_semantics (a b : Nat) (st : BulkSt) :
    dispose.these (some [.nullItem, .obj a false, .undefinedItem, .obj b false]) false st =
      ({ st with disposedIds := st.disposedIds ++ [a, b] }, .ok) ∧
    (∀ (t : Bool) (u : BulkSt), singleUnsafeImpl .nullItem t u = (u, .ok)) ∧
    (∀ (t : Bool) (u : BulkSt), singleUnsafeImpl .undefinedItem t u = (u, .ok)) ∧
    (∀ (k : Nat) (t : Bool) (u : BulkSt),
       singleUnsafeImpl (.noDisposeObj k) t u = (u, .ok)) ∧
    dispose [] st = (st, .ok) ∧
    dispose.withoutException [] st = (st, .ok) ∧
    dispose.these none false st = (st, .ok) ∧
    dispose.these (some []) true st = (st, .ok) ∧
    (∀ (l : List DisposableItem) (t : Bool) (u : BulkSt),
       (∀ d ∈ l, itemRaises d = false) →
       theseUnsafeImpl (some l) t u =
         ({ u with disposedIds := u.disposedIds ++ l.filterMap itemId }, .ok)) := by
  refine ⟨?_, ?_, ?_, ?_, ?_, ?_, ?_, ?_, ?_⟩
  · simp [dispose.these, theseUnsafeImpl, theseLoop, singleUnsafeImpl, callDisposeOn]
  · intro t u; simp [singleUnsafeImpl]
  · intro t u; simp [singleUnsafeImpl]
  · intro k t u; simp [singleUnsafeImpl]
  · simp [dispose, theseUnsafeImpl, theseLoop]
  · simp [dispose.withoutException, theseUnsafeImpl, theseLoop]
  · simp [dispose.these]
  · simp [dispose.these]
  · intro l
    induction l with
    | nil => intro t u _; simp [theseUnsafeImpl, theseLoop]
    | cons d rest ih =>
      intro t u hq
      have hd := hq d (by simp)
      have hrest : ∀ x ∈ rest, itemRaises x = false :=
        fun x hx => hq x (by simp [hx])
      cases d with
      | nullItem =>
        have := ih t u hrest
        simp only [theseUnsafeImpl, theseLoop, singleUnsafeImpl] at this ⊢
        simpa [itemId] using this
      | undefinedItem =>
        have := ih t u hrest
        simp only [theseUnsafeImpl, theseLoop, singleUnsafeImpl] at this ⊢
        simpa [itemId] using this
      | noDisposeObj k =>
        have := ih t u hrest
        simp only [theseUnsafeImpl, theseLoop, singleUnsafeImpl] at this ⊢
        simpa [itemId] using this
      | obj id raises =>
        have hraise : raises = false := by simpa [itemRaises] using hd
        subst hraise
        have := ih t { u with disposedIds := u.disposedIds ++ [id] } hrest
        simp only [theseUnsafeImpl] at this
        cases t <;>
          simp [theseUnsafeImpl, theseLoop, singleUnsafeImpl, callDisposeOn,
                itemId, this, List.append_assoc]

theorem c8_skip_semantics_witness :
    dispose.these (some [.nullItem, .obj 7 false, .undefinedItem, .obj 9 false]) false
        { disposedIds := [], errorLog := [] } =
      ({ disposedIds := [7, 9], errorLog := [] }, .ok) ∧
    theseUnsafeImpl (some [.noDisposeObj 4, .obj 7 false, .obj 9 false]) false
        { disposedIds := [], errorLog := [] } =
      ({ disposedIds := [7, 9], errorLog := [] }, .ok) := by
  have h := c8_skip_semantics 7 9 { disposedIds := [], errorLog := [] }
  refine ⟨h.1, ?_⟩
  have h9 := h.2.2.2.2.2.2.2.2 [.noDisposeObj 4, .obj 7 false, .obj 9 false] false
    { disposedIds := [], errorLog := [] } (by decide)
  simpa [itemId] using h9

/-- C5: `_finishDispose` first clears the stored finalizer reference, then
sets the state to `Disposed` and freezes the record, and only then invokes
the finalizer (if one was present) — the finalizer therefore runs in a
state (`finishEntry s`) in which `wasDisposed` already reads `true`, so a
finalizer that calls back into the object observes `wasDisposed = true`
(an `obsWasDisposed` finalizer takes its `true` branch); and because the
reference was cleared (and the record frozen), no later call can ever
invoke the finalizer a second time: the invocation count stays fixed under
every further call, and another `_finishDispose` throws without effect. -/
theorem c5_finishDispose (o : Obj) (n : Nat) (s : St) (p : Prog)
    (hz : s.frozen = false) (hp : s.finalizer = some p) :
    exec o (n+1) .finish s = exec o n (.prog p) (finishEntry s) ∧
    (finishEntry s).finalizer = none ∧
    (finishEntry s).state = .Disposed ∧
    (finishEntry s).frozen = true ∧
    wasDisposed (finishEntry s) = true ∧
    (finishEntry s).events = s.events ++ [.setState .Disposed, .finalizer] ∧
    (∀ (m : Nat) (k : Bool → Prog), p = .obsWasDisposed k →
       exec o (m+1) (.prog p) (finishEntry s) =
         exec o m (.prog (k true))
           { finishEntry s with events := (finishEntry s).events ++ [.obs true] }) ∧
    (exec o n (.prog p) (finishEntry s)).1.finalizer = none ∧
    cF (exec o n (.prog p) (finishEntry s)).1 = cF s + 1 ∧
    (∀ (m : Nat) (c : Call),
       cF (exec o m c (exec o n (.prog p) (finishEntry s)).1).1 =
         cF (exec o n (.prog p) (finishEntry s)).1) ∧
    (∀ (m : Nat), exec o (m+1) .finish (exec o n (.prog p) (finishEntry s)).1 =
       ((exec o n (.prog p) (finishEntry s)).1, .thrown)) := by
  have h1 : exec o (n+1) .finish s = exec o n (.prog p) (finishEntry s) := by
    rw [exec_finish_succ]
    simp [hz, hp]
  have hfr := finrel_none (rfl : (finishEntry s).finalizer = none)
    (exec_finrel o n (.prog p) (finishEntry s))
  have hcF : cF (finishEntry s) = cF s + 1 := by
    simp [cF, finishEntry, List.count_append]
  have hobs := exec_obsOnly o n (.prog p) (finishEntry s) rfl rfl
  refine ⟨h1, rfl, rfl, rfl, rfl, rfl, ?_, hfr.1, by rw [hfr.2, hcF], ?_, ?_⟩
  · intro m k hk
    subst hk
    have hstep : exec o (m+1) (.prog (.obsWasDisposed k)) (finishEntry s) =
        exec o m (.prog (k (wasDisposed (finishEntry s))))
          { finishEntry s with
            events := (finishEntry s).events ++ [.obs (wasDisposed (finishEntry s))] } := rfl
    rw [hstep, show wasDisposed (finishEntry s) = true from rfl]
  · intro m c
    exact (finrel_none hfr.1 (exec_finrel o m c _)).2
  · intro m
    have hfz : (exec o n (.prog p) (finishEntry s)).1.frozen = true := hobs.2.1
    rw [exec_finish_succ, if_pos hfz]

theorem c5_finishDispose_witness :
    exec oTearFail 5 .finish s0 = exec oTearFail 4 (.prog .skip) (finishEntry s0) ∧
    wasDisposed (finishEntry s0) = true ∧
    cF (exec oTearFail 4 (.prog .skip) (finishEntry s0)).1 = cF s0 + 1 ∧
    cF (exec oTearFail 3 .disp (exec oTearFail 4 (.prog .skip) (finishEntry s0)).1).1 =
      cF (exec oTearFail 4 (.prog .skip) (finishEntry s0)).1 ∧
    exec oTearFail 3 .finish (exec oTearFail 4 (.prog .skip) (finishEntry s0)).1 =
      ((exec oTearFail 4 (.prog .skip) (finishEntry s0)).1, .thrown) ∧
    exec oTearFail 3 (.prog pObs) (finishEntry sObs) =
      exec oTearFail 2 (.prog ((fun _ => Prog.skip) true))
        { finishEntry sObs with events := (finishEntry sObs).events ++ [.obs true] } := by
  have h := c5_finishDispose oTearFail 4 s0 .skip rfl rfl
  have h2 := c5_finishDispose oTearFail 4 sObs pObs rfl rfl
  exact ⟨h.1, h.2.2.2.2.1, h.2.2.2.2.2.2.2.2.1, h.2.2.2.2.2.2.2.2.2.1 2 .disp,
         h.2.2.2.2.2.2.2.2.2.2 2, h2.2.2.2.2.2.2.1 2 (fun _ => Prog.skip) rfl⟩

/-- C10: if `_onBeforeDispose` raises during `dispose()` on an object in
state `Alive`, the exception propagates to the caller without
`_finishDispose` being run: the object is left in state `Disposing`
(`wasDisposed` reads `true`), the stored finalizer reference is still
present but was never invoked (the finalizer-invocation count is
unchanged, and `_onDispose` was never invoked either), and every
subsequent `dispose()` (or `disposeAsync()`) call returns immediately
without invoking any hook or the finalizer. -/
theorem c10_beforeDispose_raises (o : Obj) (n : Nat) (s : St) (p : Prog)
    (hA : s.state = .Alive) (hFin : s.finalizer = some p)
    (hb : ∀ t : St, exec o n (.prog o.onBeforeDispose) t = (t, .thrown)) :
    exec o (n+2) .disp s =
      ({ s with state := .Disposing,
                events := s.events ++
                  [.setState .DisposeCalled, .beforeDispose, .setState .Disposing] },
       .thrown) ∧
    (exec o (n+2) .disp s).1.state = .Disposing ∧
    wasDisposed (exec o (n+2) .disp s).1 = true ∧
    (exec o (n+2) .disp s).1.finalizer = some p ∧
    cF (exec o (n+2) .disp s).1 = cF s ∧
    (exec o (n+2) .disp s).1.events.count Ev.onDispose = s.events.count Ev.onDispose ∧
    (∀ (m : Nat), exec o (m+2) .disp (exec o (n+2) .disp s).1 =
       ((exec o (n+2) .disp s).1, .ok true)) ∧
    (∀ (m : Nat), exec o (m+2) .dispAsync (exec o (n+2) .disp s).1 =
       ((exec o (n+2) .disp s).1, .ok true)) := by
  have hs1 : exec o (n+1) .start s =
      ({ s with state := .Disposing,
                events := s.events ++
                  [.setState .DisposeCalled, .beforeDispose, .setState .Disposing] },
       .thrown) := by
    rw [exec_start_succ, if_pos hA, hb (startEntry s)]
    simp [advanceIfStillCalled, startEntry, List.append_assoc]
  have hdisp : exec o (n+2) .disp s =
      ({ s with state := .Disposing,
                events := s.events ++
                  [.setState .DisposeCalled, .beforeDispose, .setState .Disposing] },
       .thrown) := by
    rw [exec_disp_succ, hs1]
  rw [hdisp]
  refine ⟨rfl, rfl, rfl, hFin, ?_, ?_, ?_, ?_⟩
  · simp [cF, List.count_append]
  · simp [List.count_append]
  · intro m
    exact disp_noop o m _ (by simp)
  · intro m
    exact dispAsync_noop o m _ (by simp)

theorem c10_beforeDispose_raises_witness :
    exec oBad 5 .disp s0 =
      ({ s0 with state := .Disposing,
                 events := s0.events ++
                   [.setState .DisposeCalled, .beforeDispose, .setState .Disposing] },
       .thrown) ∧
    (exec oBad 5 .disp s0).1.state = .Disposing ∧
    wasDisposed (exec oBad 5 .disp s0).1 = true ∧
    (exec oBad 5 .disp s0).1.finalizer = some .skip ∧
    cF (exec oBad 5 .disp s0).1 = cF s0 ∧
    exec oBad 6 .disp (exec oBad 5 .disp s0).1 = ((exec oBad 5 .disp s0).1, .ok true) := by
  have h := c10_beforeDispose_raises oBad 3 s0 .skip rfl rfl (fun t => rfl)
  exact ⟨h.1, h.2.1, h.2.2.1, h.2.2.2.1, h.2.2.2.2.1, h.2.2.2.2.2.2.1 4⟩

/-- Characterization of a `dispose()` run in which `_startDispose`
succeeded: the teardown hook runs, then the `finally` runs
`_finishDispose`, and the hook's completion is combined with the
`finally`'s by the usual try/finally rule. -/
theorem disp_characterize (o : Obj) (n : Nat) (s s1 s2 s3 : St) (r2 r3 : Res)
    (h1 : exec o n .start s = (s1, .ok true))
    (h2 : exec o n (.prog o.onDispose)
            { s1 with events := s1.events ++ [Ev.onDispose] } = (s2, r2))
    (hr2 : r2 ≠ .fuelOut)
    (h3 : exec o n .finish s2 = (s3, r3)) :
    exec o (n+1) .disp s = (s3, finallyRes r2 r3) := by
  rw [exec_disp_succ]
  split
  next s1x heqx =>
    rw [h1] at heqx
    exact absurd (congrArg Prod.snd heqx) (by simp)
  next s1x heqx =>
    rw [h1] at heqx
    have hs1x : s1 = s1x := congrArg Prod.fst heqx
    subst hs1x
    split
    next s2x heq2x =>
      rw [h2] at heq2x
      exact absurd (congrArg Prod.snd heq2x) (by simpa using hr2)
    next s2x r2x hne2x heq2x =>
      rw [h2] at heq2x
      have hs2x : s2 = s2x := congrArg Prod.fst heq2x
      have hr2x : r2 = r2x := congrArg Prod.snd heq2x
      subst hs2x; subst hr2x
      split
      next s3x b3x heq3x =>
        rw [h3] at heq3x
        have hs3x : s3 = s3x := congrArg Prod.fst heq3x
        have hr3x : r3 = .ok b3x := congrArg Prod.snd heq3x
        subst hs3x
        rw [hr3x, finallyRes]
      next rfx hne3x heq3x =>
        rw [h3]
        cases r3 with
        | ok b => exact absurd h3 (heq3x s3 b)
        | thrown => rfl
        | fuelOut => rfl
  next rx hnex heqx =>
    exact absurd h1 (heqx s1)

/-- Same characterization for `disposeAsync()`. -/
theorem dispAsync_characterize (o : Obj) (n : Nat) (s s1 s2 s3 : St) (r2 r3 : Res)
    (h1 : exec o n .start s = (s1, .ok true))
    (h2 : exec o n (.prog o.onDisposeAsync)
            { s1 with events := s1.events ++ [Ev.onDisposeAsync] } = (s2, r2))
    (hr2 : r2 ≠ .fuelOut)
    (h3 : exec o n .finish s2 = (s3, r3)) :
    exec o (n+1) .dispAsync s = (s3, finallyRes r2 r3) := by
  rw [exec_dispAsync_succ]
  split
  next s1x heqx =>
    rw [h1] at heqx
    exact absurd (congrArg Prod.snd heqx) (by simp)
  next s1x heqx =>
    rw [h1] at heqx
    have hs1x : s1 = s1x := congrArg Prod.fst heqx
    subst hs1x
    split
    next s2x heq2x =>
      rw [h2] at heq2x
      exact absurd (congrArg Prod.snd heq2x) (by simpa using hr2)
    next s2x r2x hne2x heq2x =>
      rw [h2] at heq2x
      have hs2x : s2 = s2x := congrArg Prod.fst heq2x
      have hr2x : r2 = r2x := congrArg Prod.snd heq2x
      subst hs2x; subst hr2x
      split
      next s3x b3x heq3x =>
        rw [h3] at heq3x
        have hs3x : s3 = s3x := congrArg Prod.fst heq3x
        have hr3x : r3 = .ok b3x := congrArg Prod.snd heq3x
        subst hs3x
        rw [hr3x, finallyRes]
      next rfx hne3x heq3x =>
        rw [h3]
        cases r3 with
        | ok b => exact absurd h3 (heq3x s3 b)
        | thrown => rfl
        | fuelOut => rfl
  next rx hnex heqx =>
    exact absurd h1 (heqx s1)

/-- Running `_startDispose` on an `Alive` object whose `_onBeforeDispose` completes
normally without touching anything: the call succeeds and the state walks
`Alive → DisposeCalled → Disposing`. -/
theorem start_of_quiet (o : Obj) (n : Nat) (s : St) (hA : s.state = .Alive)
    (hb : ∀ t : St, exec o n (.prog o.onBeforeDispose) t = (t, .ok true)) :
    exec o (n+1) .start s =
      ({ s with state := .Disposing,
                events := s.events ++
                  [.setState .DisposeCalled, .beforeDispose, .setState .Disposing] },
       .ok true) := by
  rw [exec_start_succ, if_pos hA, hb (startEntry s)]
  simp [advanceIfStillCalled, startEntry, List.append_assoc]

/-- C1 counterexample: an object whose `_onBeforeDispose` raises.  Its
`dispose()` propagates the exception (outcome `thrown`), but the state is
left at `Disposing` — it never reaches `Disposed` — and the finalizer
supplied at construction is never invoked (its reference is still stored
and no invocation was recorded), contradicting the claim that a teardown
exception propagates only after `_finishDispose` has run. -/
theorem c1_counterexample :
    (exec oBad 5 .disp s0).2 = .thrown ∧
    (exec oBad 5 .disp s0).1.state = .Disposing ∧
    (exec oBad 5 .disp s0).1.state ≠ .Disposed ∧
    cF (exec oBad 5 .disp s0).1 = 0 ∧
    (exec oBad 5 .disp s0).1.finalizer.isSome = true ∧
    s0.state = .Alive ∧ s0.finalizer.isSome = true := by
  decide

/-- C1 (amended): for an object in state `Alive` whose `_onBeforeDispose`
completes normally, an exception raised by the teardown hook — `_onDispose`
under `dispose()`, or `_onDisposeAsync` under `disposeAsync()` — propagates
to the caller only after `_finishDispose` has run: the final state is
`Disposed` and the finalizer was invoked exactly once more.  (When
`_onBeforeDispose` itself raises, `_finishDispose` is *not* run; that path
is the subject of the counterexample.) -/
theorem c1_teardown_failure_still_finalizes (o : Obj) (n : Nat) (s : St) (p : Prog)
    (hA : s.state = .Alive) (hz : s.frozen = false) (hFin : s.finalizer = some p)
    (hb : ∀ t : St, exec o n (.prog o.onBeforeDispose) t = (t, .ok true)) :
    ((∀ t : St, exec o (n+1) (.prog o.onDispose) t = (t, .thrown)) →
      (exec o (n+2) .disp s).2 ≠ .fuelOut →
      (exec o (n+2) .disp s).2 = .thrown ∧
      (exec o (n+2) .disp s).1.state = .Disposed ∧
      cF (exec o (n+2) .disp s).1 = cF s + 1) ∧
    ((∀ t : St, exec o (n+1) (.prog o.onDisposeAsync) t = (t, .thrown)) →
      (exec o (n+2) .dispAsync s).2 ≠ .fuelOut →
      (exec o (n+2) .dispAsync s).2 = .thrown ∧
      (exec o (n+2) .dispAsync s).1.state = .Disposed ∧
      cF (exec o (n+2) .dispAsync s).1 = cF s + 1) := by
  have h1 := start_of_quiet o n s hA hb
  set s1 : St :=
    { s with state := .Disposing,
             events := s.events ++
               [.setState .DisposeCalled, .beforeDispose, .setState .Disposing] } with hs1
  constructor
  · intro hd hnf
    set s1' : St := { s1 with events := s1.events ++ [Ev.onDispose] } with hs1'
    have hfz : ¬(s1'.frozen = true) := by simp [hs1', hs1, hz]
    have hfin' : s1'.finalizer = some p := hFin
    rcases hp3 : exec o n (.prog p) (finishEntry s1') with ⟨s3, r3⟩
    have h3 : exec o (n+1) .finish s1' = (s3, r3) := by
      rw [exec_finish_succ, if_neg hfz, hfin']
      exact hp3
    have hchar : exec o (n+2) .disp s = (s3, finallyRes .thrown r3) :=
      disp_characterize o (n+1) s s1 s1' s3 .thrown r3 h1 (hd s1') (by simp) h3
    have hOnly := exec_obsOnly o n (.prog p) (finishEntry s1') rfl rfl
    rw [hp3] at hOnly
    have hcount := finrel_none (rfl : (finishEntry s1').finalizer = none)
      (exec_finrel o n (.prog p) (finishEntry s1'))
    rw [hp3] at hcount
    have hcF : cF s3 = cF s + 1 := by
      rw [hcount.2]
      simp [cF, finishEntry, hs1', hs1, List.count_append]
    rw [hchar] at hnf ⊢
    cases r3 with
    | ok b => exact ⟨rfl, hOnly.1, hcF⟩
    | thrown => exact ⟨rfl, hOnly.1, hcF⟩
    | fuelOut => exact absurd rfl hnf
  · intro hd hnf
    set s1' : St := { s1 with events := s1.events ++ [Ev.onDisposeAsync] } with hs1'
    have hfz : ¬(s1'.frozen = true) := by simp [hs1', hs1, hz]
    have hfin' : s1'.finalizer = some p := hFin
    rcases hp3 : exec o n (.prog p) (finishEntry s1') with ⟨s3, r3⟩
    have h3 : exec o (n+1) .finish s1' = (s3, r3) := by
      rw [exec_finish_succ, if_neg hfz, hfin']
      exact hp3
    have hchar : exec o (n+2) .dispAsync s = (s3, finallyRes .thrown r3) :=
      dispAsync_characterize o (n+1) s s1 s1' s3 .thrown r3 h1 (hd s1') (by simp) h3
    have hOnly := exec_obsOnly o n (.prog p) (finishEntry s1') rfl rfl
    rw [hp3] at hOnly
    have hcount := finrel_none (rfl : (finishEntry s1').finalizer = none)
      (exec_finrel o n (.prog p) (finishEntry s1'))
    rw [hp3] at hcount
    have hcF : cF s3 = cF s + 1 := by
      rw [hcount.2]
      simp [cF, finishEntry, hs1', hs1, List.count_append]
    rw [hchar] at hnf ⊢
    cases r3 with
    | ok b => exact ⟨rfl, hOnly.1, hcF⟩
    | thrown => exact ⟨rfl, hOnly.1, hcF⟩
    | fuelOut => exact absurd rfl hnf

theorem c1_teardown_failure_witness :
    (exec oTearFail 5 .disp s0).2 = .thrown ∧
    (exec oTearFail 5 .disp s0).1.state = .Disposed ∧
    cF (exec oTearFail 5 .disp s0).1 = cF s0 + 1 ∧
    (exec oTearFailAsync 5 .dispAsync s0).2 = .thrown ∧
    (exec oTearFailAsync 5 .dispAsync s0).1.state = .Disposed ∧
    cF (exec oTearFailAsync 5 .dispAsync s0).1 = cF s0 + 1 := by
  have hSync := (c1_teardown_failure_still_finalizes oTearFail 3 s0 .skip rfl rfl rfl
    (fun t => rfl)).1 (fun t => rfl) (by decide)
  have hAsync := (c1_teardown_failure_still_finalizes oTearFailAsync 3 s0 .skip rfl rfl rfl
    (fun t => rfl)).2 (fun t => rfl) (by decide)
  exact ⟨hSync.1, hSync.2.1, hSync.2.2, hAsync.1, hAsync.2.1, hAsync.2.2⟩

theorem disp_char_fuelOut (o : Obj) (n : Nat) (s s1 s2 : St)
    (h1 : exec o n .start s = (s1, .ok true))
    (h2 : exec o n (.prog o.onDispose)
            { s1 with events := s1.events ++ [Ev.onDispose] } = (s2, .fuelOut)) :
    exec o (n+1) .disp s = (s2, .fuelOut) := by
  rw [exec_disp_succ]
  split
  next s1x heqx =>
    rw [h1] at heqx
    exact absurd (congrArg Prod.snd heqx) (by simp)
  next s1x heqx =>
    rw [h1] at heqx
    have hs1x : s1 = s1x := congrArg Prod.fst heqx
    subst hs1x
    split
    next s2x heq2x =>
      rw [h2] at heq2x
      have hs2x : s2 = s2x := congrArg Prod.fst heq2x
      rw [hs2x]
    next s2x r2x hne2x heq2x =>
      rw [h2] at heq2x
      exact absurd (congrArg Prod.snd heq2x).symm hne2x
  next rx hnex heqx =>
    exact absurd h1 (heqx s1)

/-- C2 counterexample: an object whose `_onBeforeDispose` raises.  It is
derived from the Disposal Template, starts `Alive` with a finalizer
installed, and after calling `dispose()` twice (N = 2) the finalizer has
run zero times — not exactly once as the claim requires. -/
theorem c2_counterexample :
    s0.state = .Alive ∧ s0.finalizer.isSome = true ∧
    cF (iterDispose oBad 5 2 s0) = 0 := by
  decide

/-- C2 (amended): for every object derived from `DisposableBase` whose
`_onBeforeDispose` completes normally (without raising or itself advancing
the disposal state), calling `dispose()` N ≥ 2 times yields the same final
state and the same recorded side effects as calling it once; over the run
`_onDispose` is invoked exactly once, the finalizer is invoked exactly
once, and every call after the first returns immediately without changing
anything.  (If `_onBeforeDispose` raises, the finalizer instead runs zero
times — the counterexample — though repeated calls still no-op.) -/
theorem c2_idempotence (o : Obj) (n : Nat) (s : St) (p : Prog)
    (hA : s.state = .Alive) (hz : s.frozen = false) (hFin : s.finalizer = some p)
    (hb : ∀ t : St, exec o n (.prog o.onBeforeDispose) t = (t, .ok true))
    (hnf : (exec o (n+2) .disp s).2 ≠ .fuelOut) :
    (∀ (N : Nat), 1 ≤ N → iterDispose o (n+2) N s = (exec o (n+2) .disp s).1) ∧
    (exec o (n+2) .disp s).1.state ≠ .Alive ∧
    cF (exec o (n+2) .disp s).1 = cF s + 1 ∧
    (exec o (n+2) .disp s).1.events.count Ev.onDispose =
      s.events.count Ev.onDispose + 1 ∧
    (exec o (n+2) .disp s).1.events.count Ev.beforeDispose =
      s.events.count Ev.beforeDispose + 1 ∧
    (∀ (t : St), t.state ≠ .Alive → exec o (n+2) .disp t = (t, .ok true)) := by
  have h1 := start_of_quiet o n s hA hb
  set s1 : St :=
    { s with state := .Disposing,
             events := s.events ++
               [.setState .DisposeCalled, .beforeDispose, .setState .Disposing] } with hs1
  set s1' : St := { s1 with events := s1.events ++ [Ev.onDispose] } with hs1'
  have hfin' : s1'.finalizer = some p := hFin
  have hfz' : s1'.frozen = false := hz
  have hs1state : s1'.state ≠ .Alive := by simp [hs1', hs1]
  have hcFs1 : cF s1' = cF s := by simp [cF, hs1', hs1, List.count_append]
  have hODs1 : s1'.events.count Ev.onDispose = s.events.count Ev.onDispose + 1 := by
    simp [hs1', hs1, List.count_append]
  have hBDs1 : s1'.events.count Ev.beforeDispose = s.events.count Ev.beforeDispose + 1 := by
    simp [hs1', hs1, List.count_append]
  rcases h2 : exec o (n+1) (.prog o.onDispose) s1' with ⟨s2, r2⟩
  have hext : Extends s1' s2 := by
    have h := exec_extends o (n+1) (.prog o.onDispose) s1'; rw [h2] at h; exact h
  have hfr : FinRel s1' s2 := by
    have h := exec_finrel o (n+1) (.prog o.onDispose) s1'; rw [h2] at h; exact h
  have hmk : markersUnchanged s1' s2 := by
    have h := exec_markers o (n+1) (.prog o.onDispose) s1' hs1state
    rw [h2] at h; exact h
  have hs2ne : s2.state ≠ .Alive := DisposeState.ne_alive_mono hext.state_le hs1state
  have hMain : r2 ≠ .fuelOut →
      (exec o (n+2) .disp s).1.state ≠ .Alive ∧
      cF (exec o (n+2) .disp s).1 = cF s + 1 ∧
      (exec o (n+2) .disp s).1.events.count Ev.onDispose =
        s.events.count Ev.onDispose + 1 ∧
      (exec o (n+2) .disp s).1.events.count Ev.beforeDispose =
        s.events.count Ev.beforeDispose + 1 := by
    intro hr2
    rcases hfr with ⟨h2f, h2z, h2c⟩ | ⟨_, h2f, h2z, h2c⟩ | ⟨hnone, _, _, _⟩
    · rcases hp3 : exec o n (.prog p) (finishEntry s2) with ⟨s3, r3⟩
      have hfs2 : s2.finalizer = some p := by rw [h2f]; exact hfin'
      have hfz2 : ¬(s2.frozen = true) := by simp [h2z, hfz', hz]
      have h3 : exec o (n+1) .finish s2 = (s3, r3) := by
        rw [exec_finish_succ, if_neg hfz2, hfs2]
        exact hp3
      have hchar := disp_characterize o (n+1) s s1 s2 s3 r2 r3 h1 h2 hr2 h3
      have hOnly := exec_obsOnly o n (.prog p) (finishEntry s2) rfl rfl
      rw [hp3] at hOnly
      have hcnt := finrel_none (rfl : (finishEntry s2).finalizer = none)
        (exec_finrel o n (.prog p) (finishEntry s2))
      rw [hp3] at hcnt
      have hmk3 := exec_markers o n (.prog p) (finishEntry s2)
        (show (finishEntry s2).state ≠ .Alive by simp [finishEntry])
      rw [hp3] at hmk3
      have hstate3 : s3.state ≠ .Alive := by
        rw [hOnly.1]; simp [finishEntry]
      have hfe : cF (finishEntry s2) = cF s2 + 1 := by
        simp [cF, finishEntry, List.count_append]
      have hcF3 : cF s3 = cF s + 1 := by
        have hx : cF s2 = cF s := h2c.trans hcFs1
        calc cF s3 = cF (finishEntry s2) := hcnt.2
          _ = cF s2 + 1 := hfe
          _ = cF s + 1 := by rw [hx]
      have hODfe : (finishEntry s2).events.count Ev.onDispose =
          s2.events.count Ev.onDispose := by
        simp [finishEntry, List.count_append]
      have hOD3 : s3.events.count Ev.onDispose = s.events.count Ev.onDispose + 1 := by
        calc s3.events.count Ev.onDispose
            = (finishEntry s2).events.count Ev.onDispose := hmk3.2.1
          _ = s2.events.count Ev.onDispose := hODfe
          _ = s1'.events.count Ev.onDispose := hmk.2.1
          _ = s.events.count Ev.onDispose + 1 := hODs1
      have hBDfe : (finishEntry s2).events.count Ev.beforeDispose =
          s2.events.count Ev.beforeDispose := by
        simp [finishEntry, List.count_append]
      have hBD3 : s3.events.count Ev.beforeDispose = s.events.count Ev.beforeDispose + 1 := by
        calc s3.events.count Ev.beforeDispose
            = (finishEntry s2).events.count Ev.beforeDispose := hmk3.1
          _ = s2.events.count Ev.beforeDispose := hBDfe
          _ = s1'.events.count Ev.beforeDispose := hmk.1
          _ = s.events.count Ev.beforeDispose + 1 := hBDs1
      cases r3 with
      | ok b => rw [hchar]; exact ⟨hstate3, hcF3, hOD3, hBD3⟩
      | thrown => rw [hchar]; exact ⟨hstate3, hcF3, hOD3, hBD3⟩
      | fuelOut =>
        rw [hchar] at hnf
        exact absurd rfl hnf
    · have h3 : exec o (n+1) .finish s2 = (s2, .thrown) := by
        rw [exec_finish_succ, if_pos h2z]
      have hchar := disp_characterize o (n+1) s s1 s2 s2 r2 .thrown h1 h2 hr2 h3
      rw [hchar]
      refine ⟨hs2ne, ?_, ?_, ?_⟩
      · show cF s2 = cF s + 1
        rw [h2c, hcFs1]
      · show s2.events.count Ev.onDispose = s.events.count Ev.onDispose + 1
        exact hmk.2.1.trans hODs1
      · show s2.events.count Ev.beforeDispose = s.events.count Ev.beforeDispose + 1
        exact hmk.1.trans hBDs1
    · exact absurd hnone (by simp [hFin])
  have hS : (exec o (n+2) .disp s).1.state ≠ .Alive ∧
      cF (exec o (n+2) .disp s).1 = cF s + 1 ∧
      (exec o (n+2) .disp s).1.events.count Ev.onDispose =
        s.events.count Ev.onDispose + 1 ∧
      (exec o (n+2) .disp s).1.events.count Ev.beforeDispose =
        s.events.count Ev.beforeDispose + 1 := by
    cases r2 with
    | ok b => exact hMain (by simp)
    | thrown => exact hMain (by simp)
    | fuelOut =>
      have hx := disp_char_fuelOut o (n+1) s s1 s2 h1 h2
      rw [hx] at hnf
      exact absurd rfl hnf
  refine ⟨?_, hS.1, hS.2.1, hS.2.2.1, hS.2.2.2, fun t ht => disp_noop o n t ht⟩
  intro N hN
  cases N with
  | zero => exact absurd hN (by simp)
  | succ k =>
    show iterDispose o (n+2) k (exec o (n+2) .disp s).1 = (exec o (n+2) .disp s).1
    exact iterDispose_fix o n _ hS.1 k

theorem c2_idempotence_witness :
    iterDispose oTearFail 5 3 s0 = (exec oTearFail 5 .disp s0).1 ∧
    (exec oTearFail 5 .disp s0).1.state ≠ .Alive ∧
    cF (exec oTearFail 5 .disp s0).1 = cF s0 + 1 ∧
    (exec oTearFail 5 .disp s0).1.events.count Ev.onDispose =
      s0.events.count Ev.onDispose + 1 ∧
    exec oTearFail 5 .disp sDisposed = (sDisposed, .ok true) := by
  have h := c2_idempotence oTearFail 3 s0 .skip rfl rfl rfl (fun t => rfl) (by decide)
  exact ⟨h.1 3 (by decide), h.2.1, h.2.2.1, h.2.2.2.1, h.2.2.2.2.2 sDisposed (by decide)⟩
